import Mathlib

/-!
# Verification of the shablang interpreter (src/shablang.py)

A shallow embedding of the shablang stack-language interpreter:
a tokenizer (`parse`), a bracket reader (`readList`), and a fuel-indexed
evaluator (`evalInner` / `whileLoop`) over a two-stack VM state
(`EvalState` = value stack + call-frame stack).

Modelling conventions:
* Python exceptions become an explicit error type `Err`; the `Except` monad
  models abort-on-error propagation (no error is caught inside the VM).
* Python's unbounded recursion and `while True` loops are indexed by fuel;
  `Err.outOfFuel` is a modelling artifact (insufficient fuel), not a Python
  exception.  Fuel is consumed once per executed token and once per loop
  iteration, so any terminating run succeeds for all large enough fuel.
* Python ints are `Int`.  Python's `/` on ints is *true division* and yields
  a `float`; floats are modelled as exact rationals (`Rat`), which is exact
  on the inputs used here.  The `Value.float` constructor exists precisely
  because `/` can produce it at runtime, even though the source's own
  `Value = Union[int, bool, List[Token]]` annotation omits it.
* Python `dict` frames become association lists with unique keys
  (`lookupFrame` / `frameSet`).
* The Python call stack is a list whose *last* element is innermost; we use
  a Lean list whose *head* is innermost (Python appends/pops at the end and
  searches with `reversed`, we cons/uncons at the head and search in order).
* `print` / `_debug_print` output is an external effect (per the spec, its
  formatting is outside the functional contract); the state effect (the pop
  performed by `print`) is modelled.
* Tokenization is modelled over ASCII whitespace (`str.split`'s
  Unicode-whitespace cases and `str.isdigit`'s Unicode digits are not
  modelled); line breaks are `\n` and `\r`.
-/

/-- A token of the language (also used directly as its "bytecodes"). -/
abbrev Token := String

/-- A runtime value.  The source annotates `Value = Union[int, bool, List[Token]]`,
but the `/` operator performs Python true division and can push a float at
runtime, so the embedding needs a float constructor (floats idealised as
exact rationals). -/
inductive Value where
  | int (n : Int)
  | bool (b : Bool)
  | float (q : Rat)
  | block (tokens : List Token)
deriving DecidableEq, Repr

/-- Does a value lie in the spec's closed sum {Integer, Boolean, CodeBlock}? -/
def valueInSpecSum : Value → Bool
  | .float _ => false
  | _ => true

/-- Errors aborting an evaluation.  Correspondence with Python exceptions:
`stackUnderflow`/`frameUnderflow` = `IndexError` (pop from empty list),
`unboundVariable` = `NameError`, `unmatchedBracket` = `StopIteration`
escaping the bracket reader, `typeError` = `TypeError`,
`zeroDivision` = `ZeroDivisionError`.  `outOfFuel` is the fuel artifact. -/
inductive Err where
  | stackUnderflow
  | unboundVariable (name : String)
  | unmatchedBracket
  | typeError
  | zeroDivision
  | frameUnderflow
  | outOfFuel
deriving DecidableEq, Repr

deriving instance DecidableEq for Except

/-- One call-stack frame: a mapping from variable names to values
(Python `dict`, modelled as an association list with unique keys). -/
abbrev CallStackFrame := List (String × Value)

/-- The VM state: value stack and call stack.  Heads are the tops. -/
structure EvalState where
  value_stack : List Value
  call_stack : List CallStackFrame
deriving DecidableEq, Repr

/-! ## Tokenizer (`parse` in the source) -/

/-- ASCII whitespace recognised by Python's `str.split()`. -/
def pyIsSpace (c : Char) : Bool :=
  c = ' ' || c = '\t' || c = '\n' || c = '\r' || c = '\x0b' || c = '\x0c'

/-- Line-break characters for `str.splitlines` (ASCII core cases). -/
def isLineBreak (c : Char) : Bool :=
  c = '\n' || c = '\r'

/-- `str.splitlines`, on characters. -/
def splitLinesCh : List Char → List (List Char)
  | [] => [[]]
  | c :: cs =>
    if isLineBreak c then [] :: splitLinesCh cs
    else
      match splitLinesCh cs with
      | [] => [[c]]
      | l :: ls => (c :: l) :: ls

/-- `line.split('#', 1)[0]`: truncate a line at the first `#`. -/
def stripComment (l : List Char) : List Char :=
  l.takeWhile (fun c => c ≠ '#')

/-- Helper for `wordsCh`: `acc` holds the reversed characters of the word
currently being read. -/
def wordsChAux : List Char → List Char → List (List Char)
  | [], acc => if acc.isEmpty then [] else [acc.reverse]
  | c :: cs, acc =>
    if pyIsSpace c then
      if acc.isEmpty then wordsChAux cs []
      else acc.reverse :: wordsChAux cs []
    else wordsChAux cs (c :: acc)

/-- `line.split()`: split on runs of whitespace, no empty words. -/
def wordsCh (l : List Char) : List (List Char) :=
  wordsChAux l []

/-- The tokenizer `parse`: per line, strip the comment and split on
whitespace; concatenate across lines in source order. -/
def parse (s : String) : List Token :=
  ((splitLinesCh s.toList).map (fun line => wordsCh (stripComment line))).flatten.map
    (fun l => String.mk l)

/-! ## Values and operators -/

/-- Python truthiness for our value kinds (`0`, `False`, `0.0`, `[]` falsy). -/
def truthy : Value → Bool
  | .int n => n ≠ 0
  | .bool b => b
  | .float q => q ≠ 0
  | .block ts => ts ≠ []

/-- View a value as a Python int where Python would (bools are ints). -/
def intOf : Value → Option Int
  | .int n => some n
  | .bool b => some (if b then 1 else 0)
  | _ => none

/-- View a value as a number (int, bool or float) for mixed arithmetic. -/
def ratOf : Value → Option Rat
  | .int n => some n
  | .bool b => some (if b then 1 else 0)
  | .float q => some q
  | _ => none

/-- Is the value a float? (controls int-vs-float result kind). -/
def isFloaty : Value → Bool
  | .float _ => true
  | _ => false

/-- Python lexicographic `<` on lists of strings. -/
def pyListLt : List String → List String → Bool
  | [], [] => false
  | [], _ :: _ => true
  | _ :: _, [] => false
  | a :: as_, b :: bs =>
    if a < b then true
    else if b < a then false
    else pyListLt as_ bs

/-- Python `==` between our value kinds (numeric kinds compare by value,
e.g. `1 == True`; blocks compare elementwise; mixed kinds are unequal). -/
def pyEq (x y : Value) : Bool :=
  match ratOf x, ratOf y with
  | some a, some b => a = b
  | _, _ =>
    match x, y with
    | .block a, .block b => a = b
    | _, _ => false

/-- Python `<`: numeric comparison, or lexicographic on blocks;
mixed numeric/block is a `TypeError`. -/
def pyLt (x y : Value) : Except Err Bool :=
  match ratOf x, ratOf y with
  | some a, some b => .ok (a < b)
  | _, _ =>
    match x, y with
    | .block a, .block b => .ok (pyListLt a b)
    | _, _ => .error .typeError

/-- Python `<=` (for totally ordered operands, `x <= y` iff `¬ y < x`). -/
def pyLe (x y : Value) : Except Err Bool :=
  match ratOf x, ratOf y with
  | some a, some b => .ok (a ≤ b)
  | _, _ =>
    match x, y with
    | .block a, .block b => .ok (!pyListLt b a)
    | _, _ => .error .typeError

/-- Numeric binary operation: float result if either operand is a float,
int result otherwise; `TypeError` on non-numbers. -/
def numBin (f : Int → Int → Int) (g : Rat → Rat → Rat) (x y : Value) :
    Except Err Value :=
  if isFloaty x || isFloaty y then
    match ratOf x, ratOf y with
    | some a, some b => .ok (.float (g a b))
    | _, _ => .error .typeError
  else
    match intOf x, intOf y with
    | some a, some b => .ok (.int (f a b))
    | _, _ => .error .typeError

/-- Python `+`: numeric addition or list concatenation. -/
def pyAdd (x y : Value) : Except Err Value :=
  match x, y with
  | .block a, .block b => .ok (.block (a ++ b))
  | _, _ => numBin (· + ·) (· + ·) x y

/-- Python `-`: numeric subtraction. -/
def pySub (x y : Value) : Except Err Value :=
  numBin (· - ·) (· - ·) x y

/-- Python list repetition `l * n` (negative counts give `[]`). -/
def listRepeat (l : List Token) (n : Int) : List Token :=
  (List.replicate n.toNat l).flatten

/-- Python `*`: numeric multiplication or list repetition. -/
def pyMul (x y : Value) : Except Err Value :=
  match x, y with
  | .block a, _ =>
    match intOf y with
    | some n => .ok (.block (listRepeat a n))
    | none => .error .typeError
  | _, .block b =>
    match intOf x with
    | some n => .ok (.block (listRepeat b n))
    | none => .error .typeError
  | _, _ => numBin (· * ·) (· * ·) x y

/-- Python `/`: *true division*, always yielding a float (`ZeroDivisionError`
on zero divisor, `TypeError` on non-numbers). -/
def pyDiv (x y : Value) : Except Err Value :=
  match ratOf x, ratOf y with
  | some a, some b =>
    if b = 0 then .error .zeroDivision else .ok (.float (a / b))
  | _, _ => .error .typeError

/-- Python `&`: boolean on two bools, bitwise on ints (bools coerce). -/
def pyAnd (x y : Value) : Except Err Value :=
  match x, y with
  | .bool a, .bool b => .ok (.bool (a && b))
  | _, _ =>
    match intOf x, intOf y with
    | some a, some b => .ok (.int (Int.land a b))
    | _, _ => .error .typeError

/-- Python `|`: boolean on two bools, bitwise on ints (bools coerce). -/
def pyOr (x y : Value) : Except Err Value :=
  match x, y with
  | .bool a, .bool b => .ok (.bool (a || b))
  | _, _ =>
    match intOf x, intOf y with
    | some a, some b => .ok (.int (Int.lor a b))
    | _, _ => .error .typeError

/-- Python `min(x, y)`: `y` if `y < x` else `x`. -/
def pyMin (x y : Value) : Except Err Value :=
  match pyLt y x with
  | .error e => .error e
  | .ok b => .ok (if b then y else x)

/-- Python `max(x, y)`: `y` if `x < y` else `x`. -/
def pyMax (x y : Value) : Except Err Value :=
  match pyLt x y with
  | .error e => .error e
  | .ok b => .ok (if b then y else x)

/-- The keys of the `BINARY_OPERATORS` table. -/
def isBinaryOp (t : Token) : Bool :=
  ["+", "-", "*", "/", "==", "!=", "<", ">", "<=", ">=", "&", "|",
    "min", "max"].contains t

/-- Apply a binary operator from the `BINARY_OPERATORS` table. -/
def applyBinOp (op : Token) (x y : Value) : Except Err Value :=
  if op = "+" then pyAdd x y
  else if op = "-" then pySub x y
  else if op = "*" then pyMul x y
  else if op = "/" then pyDiv x y
  else if op = "==" then .ok (.bool (pyEq x y))
  else if op = "!=" then .ok (.bool (!pyEq x y))
  else if op = "<" then (pyLt x y).map .bool
  else if op = ">" then (pyLt y x).map .bool
  else if op = "<=" then (pyLe x y).map .bool
  else if op = ">=" then (pyLe y x).map .bool
  else if op = "&" then pyAnd x y
  else if op = "|" then pyOr x y
  else if op = "min" then pyMin x y
  else if op = "max" then pyMax x y
  else .error .typeError

/-- The keys of the `UNARY_OPERATORS` table. -/
def isUnaryOp (t : Token) : Bool :=
  ["~", "!", "abs"].contains t

/-- Apply a unary operator from the `UNARY_OPERATORS` table
(`~` is Python unary `-x`, `!` is `not x`, `abs` is `abs(x)`). -/
def applyUnOp (op : Token) (x : Value) : Except Err Value :=
  if op = "~" then
    match x with
    | .int n => .ok (.int (-n))
    | .bool b => .ok (.int (-(if b then 1 else 0)))
    | .float q => .ok (.float (-q))
    | .block _ => .error .typeError
  else if op = "!" then .ok (.bool (!truthy x))
  else if op = "abs" then
    match x with
    | .int n => .ok (.int n.natAbs)
    | .bool b => .ok (.int (if b then 1 else 0))
    | .float q => .ok (.float |q|)
    | .block _ => .error .typeError
  else .error .typeError

/-! ## Integer literals -/

/-- `token.isdigit() or token[0] == '-' and token[1:].isdigit()` (ASCII). -/
def isIntLit (t : Token) : Bool :=
  match t.toList with
  | [] => false
  | '-' :: rest => !rest.isEmpty && rest.all Char.isDigit
  | l => l.all Char.isDigit

/-- Value of a digit string. -/
def digitsVal (l : List Char) : Int :=
  l.foldl (fun a c => a * 10 + ((c.toNat : Int) - 48)) 0

/-- `int(token)` for tokens satisfying `isIntLit`. -/
def intLitVal (t : Token) : Int :=
  match t.toList with
  | '-' :: rest => -(digitsVal rest)
  | l => digitsVal l

/-- First character of a token (`token[0]`; `none` on the empty string,
where Python would raise `IndexError` — unreachable from `parse`). -/
def strHead (t : Token) : Option Char :=
  t.toList.head?

/-! ## Frames and variables -/

/-- Lookup in one frame (Python `varname in frame` / `frame[varname]`). -/
def lookupFrame : CallStackFrame → String → Option Value
  | [], _ => none
  | (k, w) :: f, n => if k = n then some w else lookupFrame f n

/-- Python dict assignment `frame[varname] = value`: replace the existing
binding or append a new one. -/
def frameSet : CallStackFrame → String → Value → CallStackFrame
  | [], n, v => [(n, v)]
  | (k, w) :: f, n, v =>
    if k = n then (n, v) :: f else (k, w) :: frameSet f n v

/-- `getvar`: search the call stack innermost-first (the source iterates
`reversed(call_stack)`), returning the first binding found. -/
def getvar : List CallStackFrame → String → Option Value
  | [], _ => none
  | f :: cs, n =>
    match lookupFrame f n with
    | some v => some v
    | none => getvar cs n

/-! ## Bracket reader -/

/-- The bracket reader (the `token == '['` arm of `_eval_inner`): consume
tokens after a `[` with a nesting depth counter, skipping `_end_of_line`
markers, returning the collected tokens (excluding the matching `]`) and
the remaining stream.  Stream exhaustion with the bracket open is the
`StopIteration` escape, reported as `unmatchedBracket`. -/
def readList (depth : Nat) : List Token → Except Err (List Token × List Token)
  | [] => .error .unmatchedBracket
  | t :: rest =>
    if t = "_end_of_line" then readList depth rest
    else if t = "[" then
      match readList (depth + 1) rest with
      | .error e => .error e
      | .ok (tl, rest') => .ok (t :: tl, rest')
    else if t = "]" then
      if depth ≤ 1 then .ok ([], rest)
      else
        match readList (depth - 1) rest with
        | .error e => .error e
        | .ok (tl, rest') => .ok (t :: tl, rest')
    else
      match readList depth rest with
      | .error e => .error e
      | .ok (tl, rest') => .ok (t :: tl, rest')

/-- Extract a code block to iterate over (Python `iter(func)`): only a
list value is iterable; ints, bools and floats raise `TypeError`. -/
def asBlock : Value → Except Err (List Token)
  | .block ts => .ok ts
  | _ => .error .typeError

/-! ## The evaluator -/

/-- The dispatch classification of a token.  `_eval_inner` classifies each
token by one `if`/`elif` chain; `TokenKind` names that chain's outcomes. -/
inductive TokenKind where
  | endOfLine
  | intLit (n : Int)
  | unary (op : Token)
  | binary (op : Token)
  | debugPrint
  | printTok
  | pushTrue
  | pushFalse
  | dupTok
  | dropTok
  | ifTok
  | ifelseTok
  | whileTok
  | call
  | callName (name : String)
  | bracket
  | assign (name : String)
  | var (name : String)
deriving DecidableEq, Repr

/-- The token dispatch of `_eval_inner`, in the source's exact `elif` order:
`_end_of_line`, int literal, unary operator, binary operator,
`_debug_print`, `print`, `true`, `false`, `dup`, `drop`, `if`, `ifelse`,
`while`, `@`, `@name`, `[`, `=name`, variable reference. -/
def classify (token : Token) : TokenKind :=
  if token = "_end_of_line" then .endOfLine
  else if isIntLit token then .intLit (intLitVal token)
  else if isUnaryOp token then .unary token
  else if isBinaryOp token then .binary token
  else if token = "_debug_print" then .debugPrint
  else if token = "print" then .printTok
  else if token = "true" then .pushTrue
  else if token = "false" then .pushFalse
  else if token = "dup" then .dupTok
  else if token = "drop" then .dropTok
  else if token = "if" then .ifTok
  else if token = "ifelse" then .ifelseTok
  else if token = "while" then .whileTok
  else if token = "@" then .call
  else if strHead token = some '@' then .callName (token.drop 1)
  else if token = "[" then .bracket
  else if strHead token = some '=' then .assign (token.drop 1)
  else .var token

mutual

/-- `_eval_inner`: the VM's inner loop over a token list.  Fuel is consumed
once per executed token; recursive evaluations (control-flow bodies,
function calls) run on the remaining fuel. -/
def evalInner : Nat → List Token → EvalState → Except Err EvalState
  | _, [], st => .ok st
  | 0, _ :: _, _ => .error .outOfFuel
  | fuel + 1, token :: rest, ⟨vstack, cstack⟩ =>
    match classify token with
    | .endOfLine =>
      -- REPL marker: print the stack, no state effect
      evalInner fuel rest ⟨vstack, cstack⟩
    | .intLit n =>
      evalInner fuel rest ⟨.int n :: vstack, cstack⟩
    | .unary op =>
      match vstack with
      | [] => .error .stackUnderflow
      | x :: vs =>
        match applyUnOp op x with
        | .error e => .error e
        | .ok v => evalInner fuel rest ⟨v :: vs, cstack⟩
    | .binary op =>
      match vstack with
      | [] => .error .stackUnderflow
      | [_] => .error .stackUnderflow
      | y :: x :: vs =>
        -- y popped first (right operand), then x (left operand)
        match applyBinOp op x y with
        | .error e => .error e
        | .ok v => evalInner fuel rest ⟨v :: vs, cstack⟩
    | .debugPrint =>
      evalInner fuel rest ⟨vstack, cstack⟩
    | .printTok =>
      match vstack with
      | [] => .error .stackUnderflow
      | _ :: vs => evalInner fuel rest ⟨vs, cstack⟩
    | .pushTrue =>
      evalInner fuel rest ⟨.bool true :: vstack, cstack⟩
    | .pushFalse =>
      evalInner fuel rest ⟨.bool false :: vstack, cstack⟩
    | .dupTok =>
      match vstack with
      | [] => .error .stackUnderflow
      | v :: vs => evalInner fuel rest ⟨v :: v :: vs, cstack⟩
    | .dropTok =>
      match vstack with
      | [] => .error .stackUnderflow
      | _ :: vs => evalInner fuel rest ⟨vs, cstack⟩
    | .ifTok =>
      match vstack with
      | [] => .error .stackUnderflow
      | [_] => .error .stackUnderflow
      | branch :: cond :: vs =>
        if truthy cond then
          match asBlock branch with
          | .error e => .error e
          | .ok body =>
            match evalInner fuel body ⟨vs, cstack⟩ with
            | .error e => .error e
            | .ok st' => evalInner fuel rest st'
        else
          evalInner fuel rest ⟨vs, cstack⟩
    | .ifelseTok =>
      match vstack with
      | [] => .error .stackUnderflow
      | [_] => .error .stackUnderflow
      | [_, _] => .error .stackUnderflow
      | elseB :: ifB :: cond :: vs =>
        if truthy cond then
          match asBlock ifB with
          | .error e => .error e
          | .ok body =>
            match evalInner fuel body ⟨vs, cstack⟩ with
            | .error e => .error e
            | .ok st' => evalInner fuel rest st'
        else
          match asBlock elseB with
          | .error e => .error e
          | .ok body =>
            match evalInner fuel body ⟨vs, cstack⟩ with
            | .error e => .error e
            | .ok st' => evalInner fuel rest st'
    | .whileTok =>
      match vstack with
      | [] => .error .stackUnderflow
      | [_] => .error .stackUnderflow
      | body :: condition :: vs =>
        match whileLoop fuel condition body ⟨vs, cstack⟩ with
        | .error e => .error e
        | .ok st' => evalInner fuel rest st'
    | .call =>
      match vstack with
      | [] => .error .stackUnderflow
      | func :: vs =>
        match asBlock func with
        | .error e => .error e
        | .ok body =>
          -- call_func: push a fresh frame, run the body, pop the frame
          match evalInner fuel body ⟨vs, [] :: cstack⟩ with
          | .error e => .error e
          | .ok st' =>
            match st'.call_stack with
            | [] => .error .frameUnderflow
            | _ :: cs' => evalInner fuel rest ⟨st'.value_stack, cs'⟩
    | .callName name =>
      -- "@f" is sugar for "f @"
      match getvar cstack name with
      | none => .error (.unboundVariable name)
      | some func =>
        match asBlock func with
        | .error e => .error e
        | .ok body =>
          match evalInner fuel body ⟨vstack, [] :: cstack⟩ with
          | .error e => .error e
          | .ok st' =>
            match st'.call_stack with
            | [] => .error .frameUnderflow
            | _ :: cs' => evalInner fuel rest ⟨st'.value_stack, cs'⟩
    | .bracket =>
      match readList 1 rest with
      | .error e => .error e
      | .ok (tl, rest') => evalInner fuel rest' ⟨.block tl :: vstack, cstack⟩
    | .assign name =>
      match vstack with
      | [] => .error .stackUnderflow
      | v :: vs =>
        match cstack with
        | [] => .error .frameUnderflow
        | f :: cs => evalInner fuel rest ⟨vs, frameSet f name v :: cs⟩
    | .var name =>
      match getvar cstack name with
      | none => .error (.unboundVariable name)
      | some v => evalInner fuel rest ⟨v :: vstack, cstack⟩

/-- The `while True` loop of the `while` arm: evaluate the condition (in the
caller's frame), pop the result, stop if falsy, else evaluate the body (in
the caller's frame) and repeat. -/
def whileLoop : Nat → Value → Value → EvalState → Except Err EvalState
  | 0, _, _, _ => .error .outOfFuel
  | fuel + 1, condition, body, st =>
    match asBlock condition with
    | .error e => .error e
    | .ok condT =>
      match evalInner fuel condT st with
      | .error e => .error e
      | .ok st1 =>
        match st1.value_stack with
        | [] => .error .stackUnderflow
        | v :: vs =>
          if truthy v then
            match asBlock body with
            | .error e => .error e
            | .ok bodyT =>
              match evalInner fuel bodyT ⟨vs, st1.call_stack⟩ with
              | .error e => .error e
              | .ok st2 => whileLoop fuel condition body st2
          else .ok ⟨vs, st1.call_stack⟩

end

/-- `eval`: start from an empty value stack and a call stack holding the
single global frame, run the tokens, return the final value stack. -/
def shEval (fuel : Nat) (tokens : List Token) : Except Err (List Value) :=
  (evalInner fuel tokens ⟨[], [[]]⟩).map EvalState.value_stack

/-- `eval` on a source string (the batch entry point). -/
def shEvalStr (fuel : Nat) (code : String) : Except Err (List Value) :=
  shEval fuel (parse code)

example : shEval 10 ["5", "2", "-"] = .ok [.int 3] := by decide
example : shEval 20 ["1", "2", "+", "3", "=="] = .ok [.bool true] := by decide
example : shEvalStr 50 "1 2 + =x\nx x * =y # comment\nx y" =
    .ok [.int 9, .int 3] := by decide

/-! ## Single-token step lemmas

Each lemma characterises one dispatch arm of `evalInner` for a token of a
known classification, with symbolic stacks. -/

theorem evalInner_nil (fuel : Nat) (st : EvalState) :
    evalInner fuel [] st = .ok st :=
  evalInner.eq_1 fuel st

theorem step_endOfLine (t : Token) (hk : classify t = .endOfLine)
    (fuel : Nat) (rest : List Token) (vs : List Value)
    (cs : List CallStackFrame) :
    evalInner (fuel + 1) (t :: rest) ⟨vs, cs⟩ = evalInner fuel rest ⟨vs, cs⟩ := by
  cases vs <;> (simp only [evalInner]; rw [hk])

theorem step_intLit (t : Token) (n : Int) (hk : classify t = .intLit n)
    (fuel : Nat) (rest : List Token) (vs : List Value)
    (cs : List CallStackFrame) :
    evalInner (fuel + 1) (t :: rest) ⟨vs, cs⟩ =
      evalInner fuel rest ⟨.int n :: vs, cs⟩ := by
  cases vs <;> (simp only [evalInner]; rw [hk])

theorem step_binary_cons (t op : Token) (hk : classify t = .binary op)
    (x y v : Value) (hv : applyBinOp op x y = .ok v)
    (fuel : Nat) (rest : List Token) (vs : List Value)
    (cs : List CallStackFrame) :
    evalInner (fuel + 1) (t :: rest) ⟨y :: x :: vs, cs⟩ =
      evalInner fuel rest ⟨v :: vs, cs⟩ := by
  simp only [evalInner]
  rw [hk]
  simp only [hv]

theorem step_binary_err (t op : Token) (hk : classify t = .binary op)
    (x y : Value) (e : Err) (hv : applyBinOp op x y = .error e)
    (fuel : Nat) (rest : List Token) (vs : List Value)
    (cs : List CallStackFrame) :
    evalInner (fuel + 1) (t :: rest) ⟨y :: x :: vs, cs⟩ = .error e := by
  simp only [evalInner]
  rw [hk]
  simp only [hv]

theorem step_binary_nil (t op : Token) (hk : classify t = .binary op)
    (fuel : Nat) (rest : List Token) (cs : List CallStackFrame) :
    evalInner (fuel + 1) (t :: rest) ⟨[], cs⟩ = .error .stackUnderflow := by
  simp only [evalInner]
  rw [hk]

theorem step_binary_one (t op : Token) (hk : classify t = .binary op)
    (fuel : Nat) (rest : List Token) (w : Value) (cs : List CallStackFrame) :
    evalInner (fuel + 1) (t :: rest) ⟨[w], cs⟩ = .error .stackUnderflow := by
  simp only [evalInner]
  rw [hk]

theorem step_unary_cons (t op : Token) (hk : classify t = .unary op)
    (x v : Value) (hv : applyUnOp op x = .ok v)
    (fuel : Nat) (rest : List Token) (vs : List Value)
    (cs : List CallStackFrame) :
    evalInner (fuel + 1) (t :: rest) ⟨x :: vs, cs⟩ =
      evalInner fuel rest ⟨v :: vs, cs⟩ := by
  simp only [evalInner]
  rw [hk]
  simp only [hv]

theorem step_unary_nil (t op : Token) (hk : classify t = .unary op)
    (fuel : Nat) (rest : List Token) (cs : List CallStackFrame) :
    evalInner (fuel + 1) (t :: rest) ⟨[], cs⟩ = .error .stackUnderflow := by
  simp only [evalInner]
  rw [hk]

theorem step_assign (t : Token) (name : String) (hk : classify t = .assign name)
    (fuel : Nat) (rest : List Token) (v : Value) (vs : List Value)
    (f : CallStackFrame) (cs : List CallStackFrame) :
    evalInner (fuel + 1) (t :: rest) ⟨v :: vs, f :: cs⟩ =
      evalInner fuel rest ⟨vs, frameSet f name v :: cs⟩ := by
  simp only [evalInner]
  rw [hk]

theorem step_assign_nil (t : Token) (name : String)
    (hk : classify t = .assign name) (fuel : Nat) (rest : List Token)
    (cs : List CallStackFrame) :
    evalInner (fuel + 1) (t :: rest) ⟨[], cs⟩ = .error .stackUnderflow := by
  simp only [evalInner]
  rw [hk]

theorem step_var_found (t : Token) (name : String) (hk : classify t = .var name)
    (v : Value) (cs : List CallStackFrame) (hv : getvar cs name = some v)
    (fuel : Nat) (rest : List Token) (vs : List Value) :
    evalInner (fuel + 1) (t :: rest) ⟨vs, cs⟩ =
      evalInner fuel rest ⟨v :: vs, cs⟩ := by
  cases vs <;> (simp only [evalInner]; rw [hk]; simp only [hv])

theorem step_var_unbound (t : Token) (name : String)
    (hk : classify t = .var name) (cs : List CallStackFrame)
    (hv : getvar cs name = none) (fuel : Nat) (rest : List Token)
    (vs : List Value) :
    evalInner (fuel + 1) (t :: rest) ⟨vs, cs⟩ =
      .error (.unboundVariable name) := by
  cases vs <;> (simp only [evalInner]; rw [hk]; simp only [hv])

theorem step_call (t : Token) (hk : classify t = .call)
    (body : List Token) (fuel : Nat) (rest : List Token) (vs : List Value)
    (cs : List CallStackFrame) :
    evalInner (fuel + 1) (t :: rest) ⟨.block body :: vs, cs⟩ =
      match evalInner fuel body ⟨vs, [] :: cs⟩ with
      | .error e => .error e
      | .ok st' =>
        match st'.call_stack with
        | [] => .error .frameUnderflow
        | _ :: cs' => evalInner fuel rest ⟨st'.value_stack, cs'⟩ := by
  simp only [evalInner]
  rw [hk]
  rfl

theorem step_call_nil (t : Token) (hk : classify t = .call)
    (fuel : Nat) (rest : List Token) (cs : List CallStackFrame) :
    evalInner (fuel + 1) (t :: rest) ⟨[], cs⟩ = .error .stackUnderflow := by
  simp only [evalInner]
  rw [hk]

theorem step_if (t : Token) (hk : classify t = .ifTok)
    (branch cond : Value) (fuel : Nat) (rest : List Token) (vs : List Value)
    (cs : List CallStackFrame) :
    evalInner (fuel + 1) (t :: rest) ⟨branch :: cond :: vs, cs⟩ =
      (if truthy cond then
        match asBlock branch with
        | .error e => .error e
        | .ok body =>
          match evalInner fuel body ⟨vs, cs⟩ with
          | .error e => .error e
          | .ok st' => evalInner fuel rest st'
      else evalInner fuel rest ⟨vs, cs⟩) := by
  simp only [evalInner]
  rw [hk]

theorem step_ifelse (t : Token) (hk : classify t = .ifelseTok)
    (elseB ifB cond : Value) (fuel : Nat) (rest : List Token)
    (vs : List Value) (cs : List CallStackFrame) :
    evalInner (fuel + 1) (t :: rest) ⟨elseB :: ifB :: cond :: vs, cs⟩ =
      (if truthy cond then
        match asBlock ifB with
        | .error e => .error e
        | .ok body =>
          match evalInner fuel body ⟨vs, cs⟩ with
          | .error e => .error e
          | .ok st' => evalInner fuel rest st'
      else
        match asBlock elseB with
        | .error e => .error e
        | .ok body =>
          match evalInner fuel body ⟨vs, cs⟩ with
          | .error e => .error e
          | .ok st' => evalInner fuel rest st') := by
  simp only [evalInner]
  rw [hk]

theorem step_while (t : Token) (hk : classify t = .whileTok)
    (body condition : Value) (fuel : Nat) (rest : List Token)
    (vs : List Value) (cs : List CallStackFrame) :
    evalInner (fuel + 1) (t :: rest) ⟨body :: condition :: vs, cs⟩ =
      match whileLoop fuel condition body ⟨vs, cs⟩ with
      | .error e => .error e
      | .ok st' => evalInner fuel rest st' := by
  simp only [evalInner]
  rw [hk]

theorem step_while_nil (t : Token) (hk : classify t = .whileTok)
    (fuel : Nat) (rest : List Token) (cs : List CallStackFrame) :
    evalInner (fuel + 1) (t :: rest) ⟨[], cs⟩ = .error .stackUnderflow := by
  simp only [evalInner]
  rw [hk]

theorem step_bracket (t : Token) (hk : classify t = .bracket)
    (fuel : Nat) (rest : List Token) (vs : List Value)
    (cs : List CallStackFrame) :
    evalInner (fuel + 1) (t :: rest) ⟨vs, cs⟩ =
      match readList 1 rest with
      | .error e => .error e
      | .ok (tl, rest') => evalInner fuel rest' ⟨.block tl :: vs, cs⟩ := by
  cases vs <;> (simp only [evalInner]; rw [hk])

theorem step_print_nil (t : Token) (hk : classify t = .printTok)
    (fuel : Nat) (rest : List Token) (cs : List CallStackFrame) :
    evalInner (fuel + 1) (t :: rest) ⟨[], cs⟩ = .error .stackUnderflow := by
  simp only [evalInner]
  rw [hk]

theorem step_dup_nil (t : Token) (hk : classify t = .dupTok)
    (fuel : Nat) (rest : List Token) (cs : List CallStackFrame) :
    evalInner (fuel + 1) (t :: rest) ⟨[], cs⟩ = .error .stackUnderflow := by
  simp only [evalInner]
  rw [hk]

theorem step_drop_nil (t : Token) (hk : classify t = .dropTok)
    (fuel : Nat) (rest : List Token) (cs : List CallStackFrame) :
    evalInner (fuel + 1) (t :: rest) ⟨[], cs⟩ = .error .stackUnderflow := by
  simp only [evalInner]
  rw [hk]

theorem step_if_nil (t : Token) (hk : classify t = .ifTok)
    (fuel : Nat) (rest : List Token) (cs : List CallStackFrame) :
    evalInner (fuel + 1) (t :: rest) ⟨[], cs⟩ = .error .stackUnderflow := by
  simp only [evalInner]
  rw [hk]

theorem step_ifelse_nil (t : Token) (hk : classify t = .ifelseTok)
    (fuel : Nat) (rest : List Token) (cs : List CallStackFrame) :
    evalInner (fuel + 1) (t :: rest) ⟨[], cs⟩ = .error .stackUnderflow := by
  simp only [evalInner]
  rw [hk]

theorem step_debugPrint (t : Token) (hk : classify t = .debugPrint)
    (fuel : Nat) (rest : List Token) (vs : List Value)
    (cs : List CallStackFrame) :
    evalInner (fuel + 1) (t :: rest) ⟨vs, cs⟩ = evalInner fuel rest ⟨vs, cs⟩ := by
  cases vs <;> (simp only [evalInner]; rw [hk])

theorem step_pushTrue (t : Token) (hk : classify t = .pushTrue)
    (fuel : Nat) (rest : List Token) (vs : List Value)
    (cs : List CallStackFrame) :
    evalInner (fuel + 1) (t :: rest) ⟨vs, cs⟩ =
      evalInner fuel rest ⟨.bool true :: vs, cs⟩ := by
  cases vs <;> (simp only [evalInner]; rw [hk])

theorem step_pushFalse (t : Token) (hk : classify t = .pushFalse)
    (fuel : Nat) (rest : List Token) (vs : List Value)
    (cs : List CallStackFrame) :
    evalInner (fuel + 1) (t :: rest) ⟨vs, cs⟩ =
      evalInner fuel rest ⟨.bool false :: vs, cs⟩ := by
  cases vs <;> (simp only [evalInner]; rw [hk])

theorem step_print_cons (t : Token) (hk : classify t = .printTok)
    (fuel : Nat) (rest : List Token) (v : Value) (vs : List Value)
    (cs : List CallStackFrame) :
    evalInner (fuel + 1) (t :: rest) ⟨v :: vs, cs⟩ =
      evalInner fuel rest ⟨vs, cs⟩ := by
  simp only [evalInner]
  rw [hk]

theorem step_dup_cons (t : Token) (hk : classify t = .dupTok)
    (fuel : Nat) (rest : List Token) (v : Value) (vs : List Value)
    (cs : List CallStackFrame) :
    evalInner (fuel + 1) (t :: rest) ⟨v :: vs, cs⟩ =
      evalInner fuel rest ⟨v :: v :: vs, cs⟩ := by
  simp only [evalInner]
  rw [hk]

theorem step_drop_cons (t : Token) (hk : classify t = .dropTok)
    (fuel : Nat) (rest : List Token) (v : Value) (vs : List Value)
    (cs : List CallStackFrame) :
    evalInner (fuel + 1) (t :: rest) ⟨v :: vs, cs⟩ =
      evalInner fuel rest ⟨vs, cs⟩ := by
  simp only [evalInner]
  rw [hk]

theorem step_unary_err (t op : Token) (hk : classify t = .unary op)
    (x : Value) (e : Err) (hv : applyUnOp op x = .error e)
    (fuel : Nat) (rest : List Token) (vs : List Value)
    (cs : List CallStackFrame) :
    evalInner (fuel + 1) (t :: rest) ⟨x :: vs, cs⟩ = .error e := by
  simp only [evalInner]
  rw [hk]
  simp only [hv]

theorem step_if_one (t : Token) (hk : classify t = .ifTok)
    (fuel : Nat) (rest : List Token) (w : Value) (cs : List CallStackFrame) :
    evalInner (fuel + 1) (t :: rest) ⟨[w], cs⟩ = .error .stackUnderflow := by
  simp only [evalInner]
  rw [hk]

theorem step_ifelse_one (t : Token) (hk : classify t = .ifelseTok)
    (fuel : Nat) (rest : List Token) (w : Value) (cs : List CallStackFrame) :
    evalInner (fuel + 1) (t :: rest) ⟨[w], cs⟩ = .error .stackUnderflow := by
  simp only [evalInner]
  rw [hk]

theorem step_ifelse_two (t : Token) (hk : classify t = .ifelseTok)
    (fuel : Nat) (rest : List Token) (w w' : Value)
    (cs : List CallStackFrame) :
    evalInner (fuel + 1) (t :: rest) ⟨[w, w'], cs⟩ = .error .stackUnderflow := by
  simp only [evalInner]
  rw [hk]

theorem step_while_one (t : Token) (hk : classify t = .whileTok)
    (fuel : Nat) (rest : List Token) (w : Value) (cs : List CallStackFrame) :
    evalInner (fuel + 1) (t :: rest) ⟨[w], cs⟩ = .error .stackUnderflow := by
  simp only [evalInner]
  rw [hk]

theorem step_call_notblock (t : Token) (hk : classify t = .call)
    (func : Value) (e : Err) (hb : asBlock func = .error e)
    (fuel : Nat) (rest : List Token) (vs : List Value)
    (cs : List CallStackFrame) :
    evalInner (fuel + 1) (t :: rest) ⟨func :: vs, cs⟩ = .error e := by
  simp only [evalInner]
  rw [hk]
  simp only [hb]

theorem step_callName_run (t : Token) (name : String)
    (hk : classify t = .callName name) (func : Value) (body : List Token)
    (cs : List CallStackFrame) (hv : getvar cs name = some func)
    (hb : asBlock func = .ok body) (fuel : Nat) (rest : List Token)
    (vs : List Value) :
    evalInner (fuel + 1) (t :: rest) ⟨vs, cs⟩ =
      match evalInner fuel body ⟨vs, [] :: cs⟩ with
      | .error e => .error e
      | .ok st' =>
        match st'.call_stack with
        | [] => .error .frameUnderflow
        | _ :: cs' => evalInner fuel rest ⟨st'.value_stack, cs'⟩ := by
  cases vs <;> (simp only [evalInner]; rw [hk]; simp only [hv, hb])

theorem step_callName_unbound (t : Token) (name : String)
    (hk : classify t = .callName name) (cs : List CallStackFrame)
    (hv : getvar cs name = none) (fuel : Nat) (rest : List Token)
    (vs : List Value) :
    evalInner (fuel + 1) (t :: rest) ⟨vs, cs⟩ =
      .error (.unboundVariable name) := by
  cases vs <;> (simp only [evalInner]; rw [hk]; simp only [hv])

theorem step_callName_notblock (t : Token) (name : String)
    (hk : classify t = .callName name) (func : Value) (e : Err)
    (cs : List CallStackFrame) (hv : getvar cs name = some func)
    (hb : asBlock func = .error e) (fuel : Nat) (rest : List Token)
    (vs : List Value) :
    evalInner (fuel + 1) (t :: rest) ⟨vs, cs⟩ = .error e := by
  cases vs <;> (simp only [evalInner]; rw [hk]; simp only [hv, hb])

/-! ## Classification lemmas -/

theorem ne_of_strHead {t : Token} {c : Char} (h : strHead t = some c)
    (s : String) (hs : ¬ strHead s = some c) : t ≠ s :=
  fun he => hs (he ▸ h)

theorem exists_tail_of_strHead {t : Token} {c : Char} (h : strHead t = some c) :
    ∃ ts, t.toList = c :: ts := by
  cases hl : t.toList with
  | nil => rw [strHead, hl] at h; simp at h
  | cons d ts =>
    rw [strHead, hl] at h
    simp at h
    exact ⟨ts, by rw [h]⟩

theorem isIntLit_false_of_head {t : Token} {c : Char} (h : strHead t = some c)
    (hc : ¬ c = '-') (hd : c.isDigit = false) : isIntLit t = false := by
  obtain ⟨ts, hl⟩ := exists_tail_of_strHead h
  rw [isIntLit, hl]
  simp [hc, hd]

theorem isUnaryOp_false_of_ne {t : Token} (h1 : t ≠ "~") (h2 : t ≠ "!")
    (h3 : t ≠ "abs") : isUnaryOp t = false := by
  simp [isUnaryOp, h1, h2, h3]

theorem isBinaryOp_false_of_head_eq {t : Token} (h : strHead t = some '=')
    (hne : t ≠ "==") : isBinaryOp t = false := by
  by_contra hb
  simp only [Bool.not_eq_false] at hb
  simp [isBinaryOp] at hb
  rcases hb with rfl|rfl|rfl|rfl|rfl|rfl|rfl|rfl|rfl|rfl|rfl|rfl|rfl|rfl
  all_goals first
  | exact absurd h (by decide)
  | exact hne rfl

/-- Every key of the binary-operator table classifies as a binary operator
(no earlier arm of the dispatch chain captures it). -/
theorem classify_of_isBinaryOp {op : Token} (h : isBinaryOp op = true) :
    classify op = .binary op := by
  simp [isBinaryOp] at h
  rcases h with rfl|rfl|rfl|rfl|rfl|rfl|rfl|rfl|rfl|rfl|rfl|rfl|rfl|rfl
  all_goals decide

/-- Every token starting with `=` other than `==` classifies as an
assignment of the name after the `=`. -/
theorem classify_assign_of_head {t : Token} (h : strHead t = some '=')
    (hne : t ≠ "==") : classify t = .assign (t.drop 1) := by
  have h_eol := ne_of_strHead h "_end_of_line" (by decide)
  have h_int := isIntLit_false_of_head h (by decide) (by decide)
  have h_un := isUnaryOp_false_of_ne (ne_of_strHead h "~" (by decide))
    (ne_of_strHead h "!" (by decide)) (ne_of_strHead h "abs" (by decide))
  have h_bin := isBinaryOp_false_of_head_eq h hne
  have h_dbg := ne_of_strHead h "_debug_print" (by decide)
  have h_pr := ne_of_strHead h "print" (by decide)
  have h_tr := ne_of_strHead h "true" (by decide)
  have h_fa := ne_of_strHead h "false" (by decide)
  have h_dup := ne_of_strHead h "dup" (by decide)
  have h_drop := ne_of_strHead h "drop" (by decide)
  have h_if := ne_of_strHead h "if" (by decide)
  have h_ifl := ne_of_strHead h "ifelse" (by decide)
  have h_wh := ne_of_strHead h "while" (by decide)
  have h_at := ne_of_strHead h "@" (by decide)
  have h_ath : ¬ strHead t = some '@' := by rw [h]; decide
  have h_br := ne_of_strHead h "[" (by decide)
  rw [classify, if_neg h_eol, if_neg (by simp [h_int]), if_neg (by simp [h_un]),
    if_neg (by simp [h_bin]), if_neg h_dbg, if_neg h_pr, if_neg h_tr,
    if_neg h_fa, if_neg h_dup, if_neg h_drop, if_neg h_if, if_neg h_ifl,
    if_neg h_wh, if_neg h_at, if_neg h_ath, if_neg h_br, if_pos h]

/-! ## Frame lookup and update lemmas -/

theorem lookupFrame_frameSet_self (f : CallStackFrame) (n : String) (v : Value) :
    lookupFrame (frameSet f n v) n = some v := by
  induction f with
  | nil => simp [frameSet, lookupFrame]
  | cons kv f ih =>
    obtain ⟨k, w⟩ := kv
    by_cases h : k = n
    · subst h
      simp [frameSet, lookupFrame]
    · simp [frameSet, lookupFrame, h, ih]

theorem lookupFrame_frameSet_other (f : CallStackFrame) (n m : String)
    (v : Value) (hnm : n ≠ m) :
    lookupFrame (frameSet f n v) m = lookupFrame f m := by
  induction f with
  | nil => simp [frameSet, lookupFrame, hnm]
  | cons kv f ih =>
    obtain ⟨k, w⟩ := kv
    by_cases h : k = n
    · subst h
      simp [frameSet, lookupFrame, hnm]
    · simp only [frameSet, if_neg h]
      by_cases h2 : k = m
      · subst h2
        simp [lookupFrame]
      · simp [lookupFrame, h2, ih]

/-! ## Claim C1: binary operators pop right then left -/

/-- C1: every binary operator token from the table, executed with at least
two values on the stack, pops the right operand `y` first (the stack top),
then the left operand `x`, pushing `op(x, y)`; and evaluating `5 2 -` from
an empty stack yields the final stack `[3]`. -/
theorem C1_binary_pop_order :
    (∀ (op : Token), isBinaryOp op = true →
      ∀ (x y v : Value) (vs : List Value) (cs : List CallStackFrame)
        (fuel : Nat) (rest : List Token),
        applyBinOp op x y = .ok v →
        evalInner (fuel + 1) (op :: rest) ⟨y :: x :: vs, cs⟩ =
          evalInner fuel rest ⟨v :: vs, cs⟩) ∧
    shEval 10 ["5", "2", "-"] = .ok [.int 3] :=
  ⟨fun op hop x y v vs cs fuel rest hv =>
    step_binary_cons op op (classify_of_isBinaryOp hop) x y v hv fuel rest vs cs,
    by decide⟩

theorem C1_binary_pop_order_witness :
    isBinaryOp "-" = true ∧
    applyBinOp "-" (.int 5) (.int 2) = .ok (.int 3) ∧
    evalInner 4 ["-"] ⟨[.int 2, .int 5], [[]]⟩ =
      evalInner 3 [] ⟨[.int 3], [[]]⟩ :=
  ⟨by decide, by decide,
    C1_binary_pop_order.1 "-" (by decide) (.int 5) (.int 2) (.int 3) [] [[]]
      3 [] (by decide)⟩

/-! ## Claim C2: innermost-first reads, innermost-only writes -/

/-- C2: variable reads search frames innermost-first and return the first
binding found; executing an assignment token `=name` (any `=`-headed token
other than the operator `==`) rebinds the popped value in the innermost
frame only, leaving every outer frame untouched; hence an inner scope
shadows but never overwrites an outer binding. -/
theorem C2_scoping :
    (∀ (f : CallStackFrame) (cs : List CallStackFrame) (n : String) (v : Value),
      lookupFrame f n = some v → getvar (f :: cs) n = some v) ∧
    (∀ (f : CallStackFrame) (cs : List CallStackFrame) (n : String),
      lookupFrame f n = none → getvar (f :: cs) n = getvar cs n) ∧
    (∀ (t : Token), strHead t = some '=' → t ≠ "==" →
      ∀ (fuel : Nat) (rest : List Token) (v : Value) (vs : List Value)
        (f : CallStackFrame) (cs : List CallStackFrame),
        evalInner (fuel + 1) (t :: rest) ⟨v :: vs, f :: cs⟩ =
          evalInner fuel rest ⟨vs, frameSet f (t.drop 1) v :: cs⟩) ∧
    (∀ (f : CallStackFrame) (cs : List CallStackFrame) (n : String) (v : Value),
      getvar (frameSet f n v :: cs) n = some v) :=
  ⟨fun f cs n v h => by simp [getvar, h],
    fun f cs n h => by simp [getvar, h],
    fun t ht hne fuel rest v vs f cs =>
      step_assign t (t.drop 1) (classify_assign_of_head ht hne) fuel rest v vs f cs,
    fun f cs n v => by simp [getvar, lookupFrame_frameSet_self]⟩

theorem C2_scoping_witness :
    lookupFrame [("x", Value.int 1)] "x" = some (Value.int 1) ∧
    getvar [[("x", Value.int 1)], [("x", Value.int 2)]] "x" = some (Value.int 1) ∧
    strHead "=x" = some '=' ∧
    evalInner 3 ["=x"] ⟨[Value.int 7], [[], [("x", Value.int 1)]]⟩ =
      evalInner 2 [] ⟨[], [[("x", Value.int 7)], [("x", Value.int 1)]]⟩ :=
  ⟨by decide,
    C2_scoping.1 [("x", Value.int 1)] [[("x", Value.int 2)]] "x" (Value.int 1)
      (by decide),
    by decide,
    C2_scoping.2.2.1 "=x" (by decide) (by decide) 2 [] (Value.int 7) []
      [] [[("x", Value.int 1)]]⟩

theorem frames_preserved (fuel : Nat) :
    (∀ (toks : List Token) (vs : List Value) (f : CallStackFrame)
      (cs : List CallStackFrame) (st' : EvalState),
      evalInner fuel toks ⟨vs, f :: cs⟩ = .ok st' →
      ∃ f', st'.call_stack = f' :: cs) ∧
    (∀ (c b : Value) (vs : List Value) (f : CallStackFrame)
      (cs : List CallStackFrame) (st' : EvalState),
      whileLoop fuel c b ⟨vs, f :: cs⟩ = .ok st' →
      ∃ f', st'.call_stack = f' :: cs) := by
  induction fuel with
  | zero =>
    constructor
    · intro toks vs f cs st' h
      cases toks with
      | nil =>
        rw [evalInner_nil] at h
        injection h with h
        subst h
        exact ⟨f, rfl⟩
      | cons t rest =>
        simp [evalInner] at h
    · intro c b vs f cs st' h
      simp [whileLoop] at h
  | succ fuel ih =>
    constructor
    · intro toks vs f cs st' h
      cases toks with
      | nil =>
        rw [evalInner_nil] at h
        injection h with h
        subst h
        exact ⟨f, rfl⟩
      | cons t rest =>
        cases hk : classify t with
        | endOfLine =>
          rw [step_endOfLine t hk] at h
          exact ih.1 rest vs f cs st' h
        | intLit n =>
          rw [step_intLit t n hk] at h
          exact ih.1 rest _ f cs st' h
        | debugPrint =>
          rw [step_debugPrint t hk] at h
          exact ih.1 rest vs f cs st' h
        | pushTrue =>
          rw [step_pushTrue t hk] at h
          exact ih.1 rest _ f cs st' h
        | pushFalse =>
          rw [step_pushFalse t hk] at h
          exact ih.1 rest _ f cs st' h
        | unary op =>
          cases vs with
          | nil =>
            rw [step_unary_nil t op hk] at h
            exact Except.noConfusion h
          | cons x vs' =>
            cases hx : applyUnOp op x with
            | error e =>
              rw [step_unary_err t op hk x e hx] at h
              exact Except.noConfusion h
            | ok v =>
              rw [step_unary_cons t op hk x v hx] at h
              exact ih.1 rest _ f cs st' h
        | binary op =>
          match vs with
          | [] =>
            rw [step_binary_nil t op hk] at h
            exact Except.noConfusion h
          | [w] =>
            rw [step_binary_one t op hk] at h
            exact Except.noConfusion h
          | y :: x :: vs' =>
            cases hx : applyBinOp op x y with
            | error e =>
              rw [step_binary_err t op hk x y e hx] at h
              exact Except.noConfusion h
            | ok v =>
              rw [step_binary_cons t op hk x y v hx] at h
              exact ih.1 rest _ f cs st' h
        | printTok =>
          cases vs with
          | nil =>
            rw [step_print_nil t hk] at h
            exact Except.noConfusion h
          | cons v vs' =>
            rw [step_print_cons t hk] at h
            exact ih.1 rest vs' f cs st' h
        | dupTok =>
          cases vs with
          | nil =>
            rw [step_dup_nil t hk] at h
            exact Except.noConfusion h
          | cons v vs' =>
            rw [step_dup_cons t hk] at h
            exact ih.1 rest _ f cs st' h
        | dropTok =>
          cases vs with
          | nil =>
            rw [step_drop_nil t hk] at h
            exact Except.noConfusion h
          | cons v vs' =>
            rw [step_drop_cons t hk] at h
            exact ih.1 rest vs' f cs st' h
        | ifTok =>
          match vs with
          | [] =>
            rw [step_if_nil t hk] at h
            exact Except.noConfusion h
          | [w] =>
            rw [step_if_one t hk] at h
            exact Except.noConfusion h
          | branch :: cond :: vs' =>
            rw [step_if t hk] at h
            split at h
            · split at h
              · exact Except.noConfusion h
              · split at h
                · exact Except.noConfusion h
                · rename_i body hb st1 heq1
                  obtain ⟨f1, hf1⟩ := ih.1 _ vs' f cs st1 heq1
                  obtain ⟨vs1, cs1⟩ := st1
                  replace hf1 : cs1 = f1 :: cs := hf1
                  subst hf1
                  exact ih.1 rest vs1 f1 cs st' h
            · exact ih.1 rest vs' f cs st' h
        | ifelseTok =>
          match vs with
          | [] =>
            rw [step_ifelse_nil t hk] at h
            exact Except.noConfusion h
          | [w] =>
            rw [step_ifelse_one t hk] at h
            exact Except.noConfusion h
          | [w, w'] =>
            rw [step_ifelse_two t hk] at h
            exact Except.noConfusion h
          | elseB :: ifB :: cond :: vs' =>
            rw [step_ifelse t hk] at h
            split at h
            all_goals
              split at h
              · exact Except.noConfusion h
              · split at h
                · exact Except.noConfusion h
                · rename_i body hb st1 heq1
                  obtain ⟨f1, hf1⟩ := ih.1 _ vs' f cs st1 heq1
                  obtain ⟨vs1, cs1⟩ := st1
                  replace hf1 : cs1 = f1 :: cs := hf1
                  subst hf1
                  exact ih.1 rest vs1 f1 cs st' h
        | whileTok =>
          match vs with
          | [] =>
            rw [step_while_nil t hk] at h
            exact Except.noConfusion h
          | [w] =>
            rw [step_while_one t hk] at h
            exact Except.noConfusion h
          | body :: condition :: vs' =>
            rw [step_while t hk] at h
            split at h
            · exact Except.noConfusion h
            · rename_i st1 heq1
              obtain ⟨f1, hf1⟩ := ih.2 condition body vs' f cs st1 heq1
              obtain ⟨vs1, cs1⟩ := st1
              replace hf1 : cs1 = f1 :: cs := hf1
              subst hf1
              exact ih.1 rest vs1 f1 cs st' h
        | call =>
          cases vs with
          | nil =>
            rw [step_call_nil t hk] at h
            exact Except.noConfusion h
          | cons func vs' =>
            cases func with
            | int n =>
              rw [step_call_notblock t hk (Value.int n) Err.typeError rfl] at h
              exact Except.noConfusion h
            | bool b =>
              rw [step_call_notblock t hk (Value.bool b) Err.typeError rfl] at h
              exact Except.noConfusion h
            | float q =>
              rw [step_call_notblock t hk (Value.float q) Err.typeError rfl] at h
              exact Except.noConfusion h
            | block ts =>
              rw [step_call t hk ts] at h
              split at h
              · exact Except.noConfusion h
              · rename_i st1 heq1
                obtain ⟨f1, hf1⟩ := ih.1 ts vs' [] (f :: cs) st1 heq1
                split at h
                · exact Except.noConfusion h
                · rename_i g cs' heq2
                  rw [heq2] at hf1
                  injection hf1 with hg htail
                  subst htail
                  exact ih.1 rest st1.value_stack f cs st' h
        | callName name =>
          cases hv : getvar (f :: cs) name with
          | none =>
            rw [step_callName_unbound t name hk _ hv] at h
            exact Except.noConfusion h
          | some func =>
            cases func with
            | int n =>
              rw [step_callName_notblock t name hk (Value.int n) Err.typeError _ hv rfl] at h
              exact Except.noConfusion h
            | bool b =>
              rw [step_callName_notblock t name hk (Value.bool b) Err.typeError _ hv rfl] at h
              exact Except.noConfusion h
            | float q =>
              rw [step_callName_notblock t name hk (Value.float q) Err.typeError _ hv rfl] at h
              exact Except.noConfusion h
            | block ts =>
              rw [step_callName_run t name hk (Value.block ts) ts _ hv rfl] at h
              split at h
              · exact Except.noConfusion h
              · rename_i st1 heq1
                obtain ⟨f1, hf1⟩ := ih.1 ts vs [] (f :: cs) st1 heq1
                split at h
                · exact Except.noConfusion h
                · rename_i g cs' heq2
                  rw [heq2] at hf1
                  injection hf1 with hg htail
                  subst htail
                  exact ih.1 rest st1.value_stack f cs st' h
        | bracket =>
          rw [step_bracket t hk] at h
          split at h
          · exact Except.noConfusion h
          · rename_i tl rest' heq
            exact ih.1 rest' _ f cs st' h
        | assign name =>
          cases vs with
          | nil =>
            rw [step_assign_nil t name hk] at h
            exact Except.noConfusion h
          | cons v vs' =>
            rw [step_assign t name hk] at h
            exact ih.1 rest vs' (frameSet f name v) cs st' h
        | var name =>
          cases hv : getvar (f :: cs) name with
          | none =>
            rw [step_var_unbound t name hk _ hv] at h
            exact Except.noConfusion h
          | some v =>
            rw [step_var_found t name hk v _ hv] at h
            exact ih.1 rest _ f cs st' h
    · intro c b vs f cs st' h
      simp only [whileLoop] at h
      split at h
      · exact Except.noConfusion h
      · rename_i condT heqc
        split at h
        · exact Except.noConfusion h
        · rename_i st1 heq1
          obtain ⟨f1, hf1⟩ := ih.1 condT vs f cs st1 heq1
          split at h
          · exact Except.noConfusion h
          · rename_i v vs2 heqv
            split at h
            · split at h
              · exact Except.noConfusion h
              · rename_i bodyT heqb
                split at h
                · exact Except.noConfusion h
                · rename_i st2 heq2
                  rw [hf1] at heq2
                  obtain ⟨f2, hf2⟩ := ih.1 bodyT vs2 f1 cs st2 heq2
                  obtain ⟨vs3, cs3⟩ := st2
                  replace hf2 : cs3 = f2 :: cs := hf2
                  subst hf2
                  exact ih.2 c b vs3 f2 cs st' h
            · injection h with h
              subst h
              exact ⟨f1, hf1⟩

/-! ## Claim C3: function calls push and pop exactly one frame -/

/-- C3: invoking a CodeBlock via `@` (or `@name`) that returns normally
leaves the frame stack exactly as it was before the call — the fresh frame
pushed on entry is popped on return, so bindings made inside the body are
unreachable afterwards (variable resolution is unchanged); and the bodies
of `if`, `ifelse` and `while` are evaluated against the caller's unchanged
call stack (no frame pushed). -/
theorem C3_call_frame_balance :
    (∀ (fuel : Nat) (body : List Token) (vs : List Value)
      (f : CallStackFrame) (cs : List CallStackFrame) (st' : EvalState),
      evalInner (fuel + 1) ["@"] ⟨.block body :: vs, f :: cs⟩ = .ok st' →
      st'.call_stack = f :: cs ∧
        ∀ n, getvar st'.call_stack n = getvar (f :: cs) n) ∧
    (∀ (t : Token) (name : String), classify t = .callName name →
      ∀ (fuel : Nat) (body : List Token) (vs : List Value)
        (f : CallStackFrame) (cs : List CallStackFrame) (st' : EvalState),
        getvar (f :: cs) name = some (.block body) →
        evalInner (fuel + 1) [t] ⟨vs, f :: cs⟩ = .ok st' →
        st'.call_stack = f :: cs) ∧
    (∀ (fuel : Nat) (rest bts : List Token) (cond : Value) (vs : List Value)
      (cs : List CallStackFrame),
      truthy cond = true →
      evalInner (fuel + 1) ("if" :: rest) ⟨.block bts :: cond :: vs, cs⟩ =
        match evalInner fuel bts ⟨vs, cs⟩ with
        | .error e => .error e
        | .ok st' => evalInner fuel rest st') ∧
    (∀ (fuel : Nat) (rest bts : List Token) (elseB : Value) (cond : Value)
      (vs : List Value) (cs : List CallStackFrame),
      truthy cond = true →
      evalInner (fuel + 1) ("ifelse" :: rest)
          ⟨elseB :: .block bts :: cond :: vs, cs⟩ =
        match evalInner fuel bts ⟨vs, cs⟩ with
        | .error e => .error e
        | .ok st' => evalInner fuel rest st') ∧
    (∀ (fuel : Nat) (rest : List Token) (body condition : Value)
      (vs : List Value) (cs : List CallStackFrame),
      evalInner (fuel + 1) ("while" :: rest) ⟨body :: condition :: vs, cs⟩ =
        match whileLoop fuel condition body ⟨vs, cs⟩ with
        | .error e => .error e
        | .ok st' => evalInner fuel rest st') := by
  refine ⟨?_, ?_, ?_, ?_, ?_⟩
  · intro fuel body vs f cs st' h
    rw [step_call "@" (by decide) body] at h
    split at h
    · exact Except.noConfusion h
    · rename_i st1 heq1
      obtain ⟨f1, hf1⟩ := (frames_preserved fuel).1 body vs [] (f :: cs) st1 heq1
      split at h
      · exact Except.noConfusion h
      · rename_i g cs' heq2
        rw [heq2] at hf1
        injection hf1 with hg htail
        subst htail
        rw [evalInner_nil] at h
        injection h with h
        subst h
        exact ⟨rfl, fun n => rfl⟩
  · intro t name hk fuel body vs f cs st' hv h
    rw [step_callName_run t name hk (.block body) body _ hv rfl] at h
    split at h
    · exact Except.noConfusion h
    · rename_i st1 heq1
      obtain ⟨f1, hf1⟩ := (frames_preserved fuel).1 body vs [] (f :: cs) st1 heq1
      split at h
      · exact Except.noConfusion h
      · rename_i g cs' heq2
        rw [heq2] at hf1
        injection hf1 with hg htail
        subst htail
        rw [evalInner_nil] at h
        injection h with h
        subst h
        rfl
  · intro fuel rest bts cond vs cs hc
    rw [step_if "if" (by decide)]
    rw [if_pos hc]
    rfl
  · intro fuel rest bts elseB cond vs cs hc
    rw [step_ifelse "ifelse" (by decide)]
    rw [if_pos hc]
    rfl
  · intro fuel rest body condition vs cs
    exact step_while "while" (by decide) body condition fuel rest vs cs

theorem C3_call_frame_balance_witness :
    evalInner 4 ["@"] ⟨[Value.block ["1"]], [[]]⟩ =
        .ok ⟨[Value.int 1], [[]]⟩ ∧
    ((⟨[Value.int 1], [[]]⟩ : EvalState).call_stack = [[]] ∧
      ∀ n, getvar (⟨[Value.int 1], [[]]⟩ : EvalState).call_stack n =
        getvar [[]] n) :=
  ⟨by decide,
    C3_call_frame_balance.1 3 ["1"] [] [] [] ⟨[Value.int 1], [[]]⟩ (by decide)⟩

/-! ## Claim C4: while semantics and loop-carried state -/

/-- C4: the `while` token pops the body CodeBlock (stack top) then the
condition CodeBlock, then loops: evaluate the condition's tokens against
the current state, pop the result, stop if falsy, else evaluate the body's
tokens and repeat — condition and body always run against the same shared
frame stack, so a counter rebound by the body via `=name` is seen by the
next condition evaluation (the concrete loop counts 0,1,2,3 and stops). -/
theorem C4_while_loop_semantics :
    (∀ (fuel : Nat) (rest : List Token) (body condition : Value)
      (vs : List Value) (cs : List CallStackFrame),
      evalInner (fuel + 1) ("while" :: rest) ⟨body :: condition :: vs, cs⟩ =
        match whileLoop fuel condition body ⟨vs, cs⟩ with
        | .error e => .error e
        | .ok st' => evalInner fuel rest st') ∧
    (∀ (fuel : Nat) (ct bt : List Token) (st : EvalState),
      whileLoop (fuel + 1) (.block ct) (.block bt) st =
        match evalInner fuel ct st with
        | .error e => .error e
        | .ok st1 =>
          match st1.value_stack with
          | [] => .error .stackUnderflow
          | v :: vs =>
            if truthy v then
              match evalInner fuel bt ⟨vs, st1.call_stack⟩ with
              | .error e => .error e
              | .ok st2 => whileLoop fuel (.block ct) (.block bt) st2
            else .ok ⟨vs, st1.call_stack⟩) ∧
    shEval 100 ["0", "=i", "[", "i", "3", "<", "]", "[", "i", "1", "+", "=i",
      "]", "while", "i"] = .ok [.int 3] :=
  ⟨fun fuel rest body condition vs cs =>
    step_while "while" (by decide) body condition fuel rest vs cs,
    fun fuel ct bt st => by simp only [whileLoop]; rfl,
    by decide⟩

/-! ## Bracket reader characterisation -/

/-- A successful `readList d ts` splits `ts` as the raw consumed tokens,
the matching `]` (excluded from the result), and the untouched remainder;
the collected block is the raw tokens minus `_end_of_line` markers, and
the bracket counts balance: depth (starting at `d`) stays positive on
every proper prefix and reaches zero exactly at the final `]`. -/
theorem readList_ok_decomp :
    ∀ (ts : List Token) (d : Nat) (tl rest : List Token), 1 ≤ d →
      readList d ts = .ok (tl, rest) →
      ∃ raw, ts = raw ++ "]" :: rest ∧
        tl = raw.filter (fun t => t ≠ "_end_of_line") ∧
        d + raw.count "[" = 1 + raw.count "]" ∧
        ∀ p, p <+: raw → 1 + p.count "]" ≤ d + p.count "[" := by
  intro ts
  induction ts with
  | nil =>
    intro d tl rest hd h
    simp [readList] at h
  | cons t ts ih =>
    intro d tl rest hd h
    rw [readList] at h
    by_cases he : t = "_end_of_line"
    · rw [if_pos he] at h
      obtain ⟨raw, h1, h2, h3, h4⟩ := ih d tl rest hd h
      subst he
      refine ⟨"_end_of_line" :: raw, by simp [h1], by simp [h2], by simpa using h3, ?_⟩
      intro p hp
      match p, hp with
      | [], _ => simpa using hd
      | q :: p', hp =>
        rw [List.cons_prefix_cons] at hp
        obtain ⟨rfl, hp'⟩ := hp
        simpa using h4 p' hp'
    · rw [if_neg he] at h
      by_cases hbr : t = "["
      · rw [if_pos hbr] at h
        split at h
        · exact Except.noConfusion h
        · rename_i tl' rest' heq
          injection h with h
          injection h with h5 h6
          subst h5
          obtain ⟨raw, h1, h2, h3, h4⟩ := ih (d + 1) tl' rest' (by omega) heq
          subst hbr
          refine ⟨"[" :: raw, by simp [h1, h6], by simp [h2], by simp; omega, ?_⟩
          intro p hp
          match p, hp with
          | [], _ => simpa using hd
          | q :: p', hp =>
            rw [List.cons_prefix_cons] at hp
            obtain ⟨rfl, hp'⟩ := hp
            have := h4 p' hp'
            simp
            omega
      · rw [if_neg hbr] at h
        by_cases hcl : t = "]"
        · rw [if_pos hcl] at h
          by_cases hd1 : d ≤ 1
          · rw [if_pos hd1] at h
            injection h with h
            injection h with h5 h6
            subst h5
            subst h6
            subst hcl
            refine ⟨[], by simp, by simp, by simp; omega, ?_⟩
            intro p hp
            rw [List.prefix_nil] at hp
            subst hp
            simpa using hd
          · rw [if_neg hd1] at h
            split at h
            · exact Except.noConfusion h
            · rename_i tl' rest' heq
              injection h with h
              injection h with h5 h6
              subst h5
              obtain ⟨raw, h1, h2, h3, h4⟩ := ih (d - 1) tl' rest' (by omega) heq
              subst hcl
              refine ⟨"]" :: raw, by simp [h1, h6], by simp [h2], by simp; omega, ?_⟩
              intro p hp
              match p, hp with
              | [], _ => simp; omega
              | q :: p', hp =>
                rw [List.cons_prefix_cons] at hp
                obtain ⟨rfl, hp'⟩ := hp
                have := h4 p' hp'
                simp
                omega
        · rw [if_neg hcl] at h
          split at h
          · exact Except.noConfusion h
          · rename_i tl' rest' heq
            injection h with h
            injection h with h5 h6
            subst h5
            obtain ⟨raw, h1, h2, h3, h4⟩ := ih d tl' rest' hd heq
            refine ⟨t :: raw, by simp [h1, h6], by simp [h2, he],
              by simp [List.count_cons, Ne.symm hbr, Ne.symm hcl]; omega, ?_⟩
            intro p hp
            match p, hp with
            | [], _ => simpa using hd
            | q :: p', hp =>
              rw [List.cons_prefix_cons] at hp
              obtain ⟨rfl, hp'⟩ := hp
              have := h4 p' hp'
              simp [List.count_cons, Ne.symm hbr, Ne.symm hcl]
              omega

/-! ## Claim C5: the bracket reader defers evaluation -/

/-- C5: on `[`, the evaluator delegates to the bracket reader and pushes the
collected tokens as one CodeBlock without evaluating them (the state is
changed only by the push); the reader consumes tokens with a depth counter
starting at 1 (`[` increments, `]` decrements), stops exactly when the
depth reaches 0, and excludes the matching outer `]`: the consumed raw
tokens keep the depth positive on every prefix and balance exactly at the
final `]`; a nested example collects `1 [ 2 ] 3` unevaluated. -/
theorem C5_bracket_defer :
    (∀ (fuel : Nat) (rest : List Token) (vs : List Value)
      (cs : List CallStackFrame),
      evalInner (fuel + 1) ("[" :: rest) ⟨vs, cs⟩ =
        match readList 1 rest with
        | .error e => .error e
        | .ok (tl, rest') => evalInner fuel rest' ⟨.block tl :: vs, cs⟩) ∧
    (∀ (d : Nat) (ts tl rest : List Token), 1 ≤ d →
      readList d ts = .ok (tl, rest) →
      ∃ raw, ts = raw ++ "]" :: rest ∧
        tl = raw.filter (fun t => t ≠ "_end_of_line") ∧
        d + raw.count "[" = 1 + raw.count "]" ∧
        ∀ p, p <+: raw → 1 + p.count "]" ≤ d + p.count "[") ∧
    shEval 20 ["[", "1", "[", "2", "]", "3", "]"] =
      .ok [.block ["1", "[", "2", "]", "3"]] :=
  ⟨fun fuel rest vs cs => step_bracket "[" (by decide) fuel rest vs cs,
    fun d ts tl rest hd h => readList_ok_decomp ts d tl rest hd h,
    by decide⟩

theorem C5_bracket_defer_witness :
    readList 1 ["1", "[", "2", "]", "]", "x"] =
        .ok (["1", "[", "2", "]"], ["x"]) ∧
    (∃ raw, ["1", "[", "2", "]", "]", "x"] = raw ++ "]" :: ["x"] ∧
      ["1", "[", "2", "]"] = raw.filter (fun t => t ≠ "_end_of_line") ∧
      1 + raw.count "[" = 1 + raw.count "]" ∧
      ∀ p, p <+: raw → 1 + p.count "]" ≤ 1 + p.count "[") :=
  ⟨by decide,
    C5_bracket_defer.2.1 1 ["1", "[", "2", "]", "]", "x"]
      ["1", "[", "2", "]"] ["x"] (by decide) (by decide)⟩

/-! ## Claim C10: blocks never contain the end-of-line marker -/

/-- C10: a CodeBlock produced by the bracket reader never contains the
interactive `_end_of_line` marker — the reader skips it while collecting —
so a block typed across several interactive lines equals the same block
given in batch source. -/
theorem C10_block_no_eol :
    (∀ (d : Nat) (ts tl rest : List Token), 1 ≤ d →
      readList d ts = .ok (tl, rest) → "_end_of_line" ∉ tl) ∧
    evalInner 20 ["[", "1", "_end_of_line", "2", "]"] ⟨[], [[]]⟩ =
      .ok ⟨[.block ["1", "2"]], [[]]⟩ ∧
    evalInner 20 ["[", "1", "2", "]"] ⟨[], [[]]⟩ =
      .ok ⟨[.block ["1", "2"]], [[]]⟩ := by
  refine ⟨?_, by decide, by decide⟩
  intro d ts tl rest hd h
  obtain ⟨raw, _, h2, _, _⟩ := readList_ok_decomp ts d tl rest hd h
  subst h2
  simp [List.mem_filter]

theorem C10_block_no_eol_witness :
    readList 1 ["x", "_end_of_line", "]"] = .ok (["x"], []) ∧
    "_end_of_line" ∉ ["x"] :=
  ⟨by decide,
    C10_block_no_eol.1 1 ["x", "_end_of_line", "]"] ["x"] [] (by decide)
      (by decide)⟩

/-! ## Claim C6: errors and their propagation -/

/-- Every key of the unary-operator table classifies as a unary operator. -/
theorem classify_of_isUnaryOp {op : Token} (h : isUnaryOp op = true) :
    classify op = .unary op := by
  simp [isUnaryOp] at h
  rcases h with rfl|rfl|rfl
  all_goals decide

/-- A stream with no `]` at all exhausts the bracket reader
(Python: `next` raises `StopIteration`), whatever the current depth. -/
theorem readList_unmatched : ∀ (ts : List Token) (d : Nat), "]" ∉ ts →
    readList d ts = .error .unmatchedBracket := by
  intro ts
  induction ts with
  | nil => intro d _; rfl
  | cons t ts ih =>
    intro d h
    have hne : ¬ t = "]" := fun he => h (he ▸ List.mem_cons_self t ts)
    have hts : "]" ∉ ts := fun hm => h (List.mem_cons_of_mem t hm)
    rw [readList]
    by_cases he : t = "_end_of_line"
    · rw [if_pos he]
      exact ih d hts
    · rw [if_neg he]
      by_cases hbr : t = "["
      · rw [if_pos hbr, ih (d + 1) hts]
      · rw [if_neg hbr, if_neg hne, ih d hts]

/-- C6: popping an empty value stack yields `StackUnderflow` (shown for
every unary and binary table operator, for `print`, `dup`, `drop`, `if`,
`ifelse`, `while`, `@`, and for assignment tokens); an unresolvable
variable reference yields `UnboundVariable`; a `[` whose stream has no
matching `]` yields `UnmatchedBracket`; and each error aborts the whole
evaluation, propagating out of nested calls and loops to the top level. -/
theorem C6_error_propagation :
    (∀ (op : Token), isBinaryOp op = true →
      ∀ (fuel : Nat) (rest : List Token) (cs : List CallStackFrame) (w : Value),
        evalInner (fuel + 1) (op :: rest) ⟨[], cs⟩ = .error .stackUnderflow ∧
        evalInner (fuel + 1) (op :: rest) ⟨[w], cs⟩ = .error .stackUnderflow) ∧
    (∀ (op : Token), isUnaryOp op = true →
      ∀ (fuel : Nat) (rest : List Token) (cs : List CallStackFrame),
        evalInner (fuel + 1) (op :: rest) ⟨[], cs⟩ = .error .stackUnderflow) ∧
    (∀ (fuel : Nat) (rest : List Token) (cs : List CallStackFrame),
      evalInner (fuel + 1) ("print" :: rest) ⟨[], cs⟩ = .error .stackUnderflow ∧
      evalInner (fuel + 1) ("dup" :: rest) ⟨[], cs⟩ = .error .stackUnderflow ∧
      evalInner (fuel + 1) ("drop" :: rest) ⟨[], cs⟩ = .error .stackUnderflow ∧
      evalInner (fuel + 1) ("if" :: rest) ⟨[], cs⟩ = .error .stackUnderflow ∧
      evalInner (fuel + 1) ("ifelse" :: rest) ⟨[], cs⟩ = .error .stackUnderflow ∧
      evalInner (fuel + 1) ("while" :: rest) ⟨[], cs⟩ = .error .stackUnderflow ∧
      evalInner (fuel + 1) ("@" :: rest) ⟨[], cs⟩ = .error .stackUnderflow) ∧
    (∀ (t : Token) (name : String), classify t = .assign name →
      ∀ (fuel : Nat) (rest : List Token) (cs : List CallStackFrame),
        evalInner (fuel + 1) (t :: rest) ⟨[], cs⟩ = .error .stackUnderflow) ∧
    (∀ (t : Token) (name : String), classify t = .var name →
      ∀ (cs : List CallStackFrame), getvar cs name = none →
        ∀ (fuel : Nat) (rest : List Token) (vs : List Value),
          evalInner (fuel + 1) (t :: rest) ⟨vs, cs⟩ =
            .error (.unboundVariable name)) ∧
    (∀ (ts : List Token) (d : Nat), "]" ∉ ts →
      readList d ts = .error .unmatchedBracket) ∧
    (∀ (fuel : Nat) (rest : List Token) (vs : List Value)
      (cs : List CallStackFrame) (e : Err), readList 1 rest = .error e →
      evalInner (fuel + 1) ("[" :: rest) ⟨vs, cs⟩ = .error e) ∧
    (shEval 50 ["[", "drop", "]", "@"] = .error .stackUnderflow ∧
      shEval 50 ["[", "y", "]", "@"] = .error (.unboundVariable "y") ∧
      shEval 50 ["[", "true", "]", "[", "q", "]", "while"] =
        .error (.unboundVariable "q") ∧
      shEval 50 ["1", "[", "["] = .error .unmatchedBracket) := by
  refine ⟨?_, ?_, ?_, ?_, ?_, readList_unmatched, ?_, by decide, by decide,
    by decide, by decide⟩
  · intro op hop fuel rest cs w
    have hk := classify_of_isBinaryOp hop
    exact ⟨step_binary_nil op op hk fuel rest cs,
      step_binary_one op op hk fuel rest w cs⟩
  · intro op hop fuel rest cs
    exact step_unary_nil op op (classify_of_isUnaryOp hop) fuel rest cs
  · intro fuel rest cs
    exact ⟨step_print_nil "print" (by decide) fuel rest cs,
      step_dup_nil "dup" (by decide) fuel rest cs,
      step_drop_nil "drop" (by decide) fuel rest cs,
      step_if_nil "if" (by decide) fuel rest cs,
      step_ifelse_nil "ifelse" (by decide) fuel rest cs,
      step_while_nil "while" (by decide) fuel rest cs,
      step_call_nil "@" (by decide) fuel rest cs⟩
  · intro t name hk fuel rest cs
    exact step_assign_nil t name hk fuel rest cs
  · intro t name hk cs hv fuel rest vs
    exact step_var_unbound t name hk cs hv fuel rest vs
  · intro fuel rest vs cs e h
    rw [step_bracket "[" (by decide), h]

theorem C6_error_propagation_witness :
    isBinaryOp "-" = true ∧
    (evalInner 3 ["-"] ⟨[], [[]]⟩ = .error .stackUnderflow ∧
      evalInner 3 ["-"] ⟨[Value.int 1], [[]]⟩ = .error .stackUnderflow) :=
  ⟨by decide, C6_error_propagation.1 "-" (by decide) 2 [] [[]] (Value.int 1)⟩

/-! ## Claim C7: the value sum is not closed — `/` produces a float -/

/-- C7 (evidence of the code bug): evaluating `5 2 /` succeeds and pushes a
Python float (true division), a value outside the documented closed sum
{Integer, Boolean, CodeBlock} of the source's own `Value` annotation. -/
theorem C7_div_escapes_value_sum :
    applyBinOp "/" (.int 5) (.int 2) = .ok (.float ((5 : Rat) / 2)) ∧
    shEval 10 ["5", "2", "/"] = .ok [.float ((5 : Rat) / 2)] ∧
    valueInSpecSum (.float ((5 : Rat) / 2)) = false :=
  ⟨rfl, rfl, rfl⟩

/-! ## Claim C8: integer-and-`+` programs sum the literals -/

/-- Sum of the integer literals of a token list, in source order. -/
def sumLits : List Token → Int
  | [] => 0
  | t :: ts => (if isIntLit t then intLitVal t else 0) + sumLits ts

/-- An integer-literal token classifies as an integer push. -/
theorem classify_intLit {t : Token} (hlit : isIntLit t = true) :
    classify t = .intLit (intLitVal t) := by
  have h1 : ¬ t = "_end_of_line" := fun he => by
    subst he
    exact absurd hlit (by decide)
  rw [classify, if_neg h1, if_pos hlit]

/-- Invariant for programs of integer literals and `+`: a successful run
turns an all-integer stack into an all-integer stack whose sum has grown by
the sum of the literals executed, and leaves the call stack unchanged. -/
theorem addProgram_invariant :
    ∀ (fuel : Nat) (ts : List Token),
      (∀ t ∈ ts, isIntLit t = true ∨ t = "+") →
      ∀ (ns : List Int) (cs : List CallStackFrame) (st' : EvalState),
        evalInner fuel ts ⟨ns.map Value.int, cs⟩ = .ok st' →
        ∃ ms : List Int, st'.value_stack = ms.map Value.int ∧
          ms.sum = ns.sum + sumLits ts ∧ st'.call_stack = cs := by
  intro fuel
  induction fuel with
  | zero =>
    intro ts hts ns cs st' h
    cases ts with
    | nil =>
      rw [evalInner_nil] at h
      injection h with h
      subst h
      exact ⟨ns, rfl, by simp [sumLits], rfl⟩
    | cons t ts => simp [evalInner] at h
  | succ fuel ih =>
    intro ts hts ns cs st' h
    cases ts with
    | nil =>
      rw [evalInner_nil] at h
      injection h with h
      subst h
      exact ⟨ns, rfl, by simp [sumLits], rfl⟩
    | cons t ts =>
      have hts' : ∀ u ∈ ts, isIntLit u = true ∨ u = "+" :=
        fun u hu => hts u (List.mem_cons_of_mem t hu)
      rcases hts t (List.mem_cons_self t ts) with hlit | heq
      · rw [step_intLit t (intLitVal t) (classify_intLit hlit)] at h
        obtain ⟨ms, h1, h2, h3⟩ := ih ts hts' (intLitVal t :: ns) cs st' h
        refine ⟨ms, h1, ?_, h3⟩
        rw [h2]
        simp [sumLits, hlit]
        omega
      · subst heq
        match ns with
        | [] =>
          rw [show (([] : List Int).map Value.int) = [] from rfl,
            step_binary_nil "+" "+" (by decide)] at h
          exact Except.noConfusion h
        | [n] =>
          rw [show (([n] : List Int).map Value.int) = [Value.int n] from rfl,
            step_binary_one "+" "+" (by decide)] at h
          exact Except.noConfusion h
        | n2 :: n1 :: ns' =>
          rw [show ((n2 :: n1 :: ns' : List Int).map Value.int) =
              Value.int n2 :: Value.int n1 :: ns'.map Value.int from rfl,
            step_binary_cons "+" "+" (by decide) (.int n1) (.int n2)
              (.int (n1 + n2)) rfl] at h
          obtain ⟨ms, h1, h2, h3⟩ := ih ts hts' ((n1 + n2) :: ns') cs st' h
          refine ⟨ms, h1, ?_, h3⟩
          rw [h2]
          simp [sumLits, show isIntLit "+" = false from by decide]
          omega

/-- C8 (amended): for a program of integer literals and `+` only, *if*
batch evaluation completes without error, the final stack consists of
integers summing to the arithmetic sum of the literals in source order
(so when a single value remains it is exactly that sum). -/
theorem C8_sum_of_literals :
    ∀ (ts : List Token), (∀ t ∈ ts, isIntLit t = true ∨ t = "+") →
      ∀ (fuel : Nat) (out : List Value), shEval fuel ts = .ok out →
        ∃ ms : List Int, out = ms.map Value.int ∧ ms.sum = sumLits ts := by
  intro ts hts fuel out h
  unfold shEval at h
  cases heval : evalInner fuel ts ⟨[], [[]]⟩ with
  | error e => rw [heval] at h; exact Except.noConfusion h
  | ok st' =>
    rw [heval] at h
    injection h with h
    subst h
    obtain ⟨ms, h1, h2, _⟩ :=
      addProgram_invariant fuel ts hts [] [[]] st' heval
    exact ⟨ms, h1, by simpa using h2⟩

/-- C8, original form, is false: `1 2` consists only of integer literals
and completes, but its final stack is `[2, 1]` (top first), not the
single-value stack `[3]`; and `+` alone does not complete at all. -/
theorem C8_counterexample :
    (∀ t ∈ ["1", "2"], isIntLit t = true ∨ t = "+") ∧
    shEval 10 ["1", "2"] = .ok [.int 2, .int 1] ∧
    shEval 10 ["1", "2"] ≠ .ok [.int 3] ∧
    shEval 10 ["+"] = .error .stackUnderflow :=
  ⟨by decide, by decide, by decide, by decide⟩

theorem C8_sum_of_literals_witness :
    (∀ t ∈ ["1", "2", "+"], isIntLit t = true ∨ t = "+") ∧
    shEval 10 ["1", "2", "+"] = .ok [Value.int 3] ∧
    ∃ ms : List Int, [Value.int 3] = ms.map Value.int ∧
      ms.sum = sumLits ["1", "2", "+"] :=
  ⟨by decide, by decide,
    C8_sum_of_literals ["1", "2", "+"] (by decide) 10 [Value.int 3] (by decide)⟩

/-! ## Claim C9: tokenization idempotence -/

/-- Join tokens with single spaces (the claim's rejoining operation). -/
def joinTokens : List Token → String
  | [] => ""
  | [t] => t
  | t :: ts => t ++ " " ++ joinTokens ts

/-- Character-level join with single spaces. -/
def joinCh : List (List Char) → List Char
  | [] => []
  | [w] => w
  | w :: ws => w ++ ' ' :: joinCh ws

theorem toList_append (a b : String) :
    (a ++ b).toList = a.toList ++ b.toList := by
  simp [String.toList]

theorem toList_joinTokens :
    ∀ ts : List Token, (joinTokens ts).toList = joinCh (ts.map String.toList) := by
  intro ts
  induction ts with
  | nil => rfl
  | cons t ts ih =>
    cases ts with
    | nil => rfl
    | cons u us =>
      show (t ++ " " ++ joinTokens (u :: us)).toList =
        t.toList ++ ' ' :: joinCh ((u :: us).map String.toList)
      rw [toList_append, toList_append, ih,
        show " ".toList = [' '] from by decide]
      simp

theorem wordsChAux_nonempty_nonspace :
    ∀ (l acc : List Char), (∀ c ∈ acc, pyIsSpace c = false) →
      ∀ w ∈ wordsChAux l acc, w ≠ [] ∧ ∀ c ∈ w, pyIsSpace c = false := by
  intro l
  induction l with
  | nil =>
    intro acc hacc w hw
    rw [wordsChAux] at hw
    split at hw
    · simp at hw
    · rename_i hne
      simp at hw
      subst hw
      constructor
      · simp
        intro h
        subst h
        simp at hne
      · intro c hc
        exact hacc c (List.mem_reverse.mp hc)
  | cons c cs ih =>
    intro acc hacc w hw
    rw [wordsChAux] at hw
    by_cases hsp : pyIsSpace c
    · rw [if_pos hsp] at hw
      split at hw
      · exact ih [] (by simp) w hw
      · rename_i hne
        rcases List.mem_cons.mp hw with rfl | hw'
        · constructor
          · simp
            intro h
            subst h
            simp at hne
          · intro d hd
            exact hacc d (List.mem_reverse.mp hd)
        · exact ih [] (by simp) w hw'
    · rw [if_neg hsp] at hw
      refine ih (c :: acc) ?_ w hw
      intro d hd
      rcases List.mem_cons.mp hd with rfl | hd'
      · simpa using hsp
      · exact hacc d hd'

theorem wordsChAux_chars_sub :
    ∀ (l acc : List Char) (w : List Char) (c : Char),
      w ∈ wordsChAux l acc → c ∈ w → c ∈ l ∨ c ∈ acc := by
  intro l
  induction l with
  | nil =>
    intro acc w c hw hc
    rw [wordsChAux] at hw
    split at hw
    · simp at hw
    · simp at hw
      subst hw
      exact Or.inr (List.mem_reverse.mp hc)
  | cons b cs ih =>
    intro acc w c hw hc
    rw [wordsChAux] at hw
    by_cases hsp : pyIsSpace b
    · rw [if_pos hsp] at hw
      split at hw
      · rcases ih [] w c hw hc with h | h
        · exact Or.inl (List.mem_cons_of_mem b h)
        · simp at h
      · rcases List.mem_cons.mp hw with rfl | hw'
        · exact Or.inr (List.mem_reverse.mp hc)
        · rcases ih [] w c hw' hc with h | h
          · exact Or.inl (List.mem_cons_of_mem b h)
          · simp at h
    · rw [if_neg hsp] at hw
      rcases ih (b :: acc) w c hw hc with h | h
      · exact Or.inl (List.mem_cons_of_mem b h)
      · rcases List.mem_cons.mp h with rfl | h'
        · exact Or.inl (List.mem_cons_self _ _)
        · exact Or.inr h'

theorem wordsChAux_consume :
    ∀ (w l acc : List Char), (∀ c ∈ w, pyIsSpace c = false) →
      wordsChAux (w ++ l) acc = wordsChAux l (w.reverse ++ acc) := by
  intro w
  induction w with
  | nil =>
    intro l acc _
    rfl
  | cons c w' ih =>
    intro l acc hw
    have hc : pyIsSpace c = false := hw c (List.mem_cons_self c w')
    show wordsChAux (c :: (w' ++ l)) acc = _
    rw [wordsChAux, if_neg (by simp [hc])]
    rw [ih l (c :: acc) (fun d hd => hw d (List.mem_cons_of_mem c hd))]
    simp

theorem wordsCh_joinCh :
    ∀ ws : List (List Char),
      (∀ w ∈ ws, w ≠ [] ∧ ∀ c ∈ w, pyIsSpace c = false) →
      wordsCh (joinCh ws) = ws := by
  intro ws
  induction ws with
  | nil => intro _; rfl
  | cons w ws ih =>
    intro h
    obtain ⟨hne, hsp⟩ := h w (List.mem_cons_self w ws)
    cases ws with
    | nil =>
      show wordsChAux (joinCh [w]) [] = [w]
      rw [show joinCh [w] = w from rfl,
        show (w : List Char) = w ++ [] from by simp,
        wordsChAux_consume w [] [] hsp, wordsChAux]
      simp [hne]
    | cons u us =>
      show wordsChAux (joinCh (w :: u :: us)) [] = w :: u :: us
      rw [show joinCh (w :: u :: us) = w ++ ' ' :: joinCh (u :: us) from rfl,
        wordsChAux_consume w (' ' :: joinCh (u :: us)) [] hsp,
        wordsChAux, if_pos (by decide),
        if_neg (by simp [hne])]
      rw [show ((w.reverse ++ ([] : List Char)).reverse) = w from by simp]
      rw [show wordsChAux (joinCh (u :: us)) [] =
        wordsCh (joinCh (u :: us)) from rfl]
      rw [ih (fun v hv => h v (List.mem_cons_of_mem w hv))]

theorem joinCh_chars :
    ∀ (ws : List (List Char)) (c : Char),
      c ∈ joinCh ws → c = ' ' ∨ ∃ w ∈ ws, c ∈ w := by
  intro ws
  induction ws with
  | nil =>
    intro c hc
    simp [joinCh] at hc
  | cons w ws ih =>
    intro c hc
    cases ws with
    | nil =>
      exact Or.inr ⟨w, List.mem_cons_self w [], hc⟩
    | cons u us =>
      rw [show joinCh (w :: u :: us) = w ++ ' ' :: joinCh (u :: us) from rfl] at hc
      rcases List.mem_append.mp hc with h | h
      · exact Or.inr ⟨w, List.mem_cons_self w (u :: us), h⟩
      · rcases List.mem_cons.mp h with rfl | h'
        · exact Or.inl rfl
        · rcases ih c h' with h2 | ⟨v, hv, hcv⟩
          · exact Or.inl h2
          · exact Or.inr ⟨v, List.mem_cons_of_mem w hv, hcv⟩

theorem splitLinesCh_no_break (l : List Char)
    (h : ∀ c ∈ l, isLineBreak c = false) : splitLinesCh l = [l] := by
  induction l with
  | nil => rfl
  | cons c cs ih =>
    rw [splitLinesCh,
      if_neg (by simp [h c (List.mem_cons_self c cs)]),
      ih (fun d hd => h d (List.mem_cons_of_mem c hd))]

theorem stripComment_id (l : List Char) (h : ∀ c ∈ l, ¬ c = '#') :
    stripComment l = l := by
  induction l with
  | nil => rfl
  | cons c cs ih =>
    have hc := h c (List.mem_cons_self c cs)
    show (c :: cs).takeWhile (fun c => c ≠ '#') = c :: cs
    rw [List.takeWhile_cons, if_pos (by simp [hc])]
    rw [show cs.takeWhile (fun c => c ≠ '#') = stripComment cs from rfl,
      ih (fun d hd => h d (List.mem_cons_of_mem c hd))]

theorem mem_stripComment :
    ∀ (l : List Char) (c : Char), c ∈ stripComment l → ¬ c = '#' := by
  intro l
  induction l with
  | nil =>
    intro c hc
    simp [stripComment] at hc
  | cons b bs ih =>
    intro c hc
    by_cases hb : b = '#'
    · subst hb
      rw [stripComment, List.takeWhile_cons] at hc
      simp at hc
    · rw [stripComment, List.takeWhile_cons] at hc
      rw [if_pos (by simp [hb])] at hc
      rcases List.mem_cons.mp hc with rfl | h'
      · exact hb
      · exact ih c h'

theorem noBreak_of_nonspace {c : Char} (h : pyIsSpace c = false) :
    isLineBreak c = false := by
  rw [pyIsSpace] at h
  rw [isLineBreak]
  simp only [Bool.or_eq_false_iff, decide_eq_false_iff_not] at h ⊢
  tauto

theorem parse_tokens_facts :
    ∀ (s : String) (t : Token), t ∈ parse s →
      t.toList ≠ [] ∧ ∀ c ∈ t.toList, pyIsSpace c = false ∧ ¬ c = '#' := by
  intro s t ht
  rw [parse] at ht
  rcases List.mem_map.mp ht with ⟨w, hw, rfl⟩
  rcases List.mem_flatten.mp hw with ⟨piece, hpiece, hwp⟩
  rcases List.mem_map.mp hpiece with ⟨line, hline, rfl⟩
  have h1 := wordsChAux_nonempty_nonspace (stripComment line) [] (by simp) w hwp
  refine ⟨h1.1, ?_⟩
  intro c hc
  have hc' : c ∈ w := hc
  refine ⟨h1.2 c hc', ?_⟩
  rcases wordsChAux_chars_sub (stripComment line) [] w c hwp hc' with h | h
  · exact mem_stripComment line c h
  · simp at h

theorem parse_joinTokens_words :
    ∀ ws : List (List Char),
      (∀ w ∈ ws, w ≠ [] ∧ ∀ c ∈ w, pyIsSpace c = false ∧ ¬ c = '#') →
      parse (joinTokens (ws.map String.mk)) = ws.map String.mk := by
  intro ws h
  have hnb : ∀ c ∈ joinCh ws, isLineBreak c = false := by
    intro c hc
    rcases joinCh_chars ws c hc with rfl | ⟨w, hw, hcw⟩
    · decide
    · exact noBreak_of_nonspace ((h w hw).2 c hcw).1
  have hnh : ∀ c ∈ joinCh ws, ¬ c = '#' := by
    intro c hc
    rcases joinCh_chars ws c hc with rfl | ⟨w, hw, hcw⟩
    · decide
    · exact ((h w hw).2 c hcw).2
  rw [parse]
  rw [show (joinTokens (ws.map String.mk)).toList = joinCh ws from by
    rw [toList_joinTokens, List.map_map]
    rw [show String.toList ∘ String.mk = id from funext fun _ => rfl, List.map_id]]
  rw [splitLinesCh_no_break (joinCh ws) hnb]
  rw [show ([joinCh ws].map fun line => wordsCh (stripComment line)) =
    [wordsCh (joinCh ws)] from by simp [stripComment_id (joinCh ws) hnh]]
  rw [show ([wordsCh (joinCh ws)] : List (List (List Char))).flatten =
    wordsCh (joinCh ws) from by simp]
  rw [wordsCh_joinCh ws
    (fun w hw => ⟨(h w hw).1, fun c hc => ((h w hw).2 c hc).1⟩)]

/-- C9: tokenizing, rejoining the tokens with single spaces, and tokenizing
again gives exactly the token sequence of the first tokenization. -/
theorem C9_tokenize_idempotent :
    ∀ s : String, parse (joinTokens (parse s)) = parse s := by
  intro s
  have hparse : parse s =
      (((splitLinesCh s.toList).map fun line =>
        wordsCh (stripComment line)).flatten).map String.mk := rfl
  rw [hparse]
  apply parse_joinTokens_words
  intro w hw
  have ht : String.mk w ∈ parse s := by
    rw [hparse]
    exact List.mem_map_of_mem _ hw
  have h2 := parse_tokens_facts s _ ht
  exact ⟨h2.1, h2.2⟩
